import Mathlib

/-!
Shallow embedding of `lotus/cache.py`: the global cache-enable gate, the
in-memory LRU-bounded cache (`InMemoryCache`) and the durable SQLite-backed
cache (`SQLiteCache`), together with theorems settling the frozen claims
about them.

Conventions of the embedding:
* Python `int` is Lean `Int`; `len(...)` is a `List.length` cast to `Int`
  where the source compares it with `self.max_size`.
* `lotus.settings.enable_cache` is a `Bool` argument (`flag`) passed to the
  operations that the `require_cache_enabled` decorator wraps (`get` and
  `insert`; `reset` is undecorated in the source).
* Python `OrderedDict` is a `List (String × α)` in insertion order, head =
  oldest.  Assignment to an existing key keeps its position (CPython
  semantics); assignment to a fresh key appends at the hot end;
  `popitem(last=False)` removes the head.
* The SQLite table is a `List (Row α)` in rowid order.  `INSERT OR REPLACE`
  deletes any row with the same primary key and appends a fresh row (fresh,
  larger rowid).  `pickle.dumps`/`pickle.loads` round-trip, so values are
  stored as themselves.
* `int(time.time())` is an `Int` argument `now` supplied per call.
* `ORDER BY last_accessed ASC` leaves the relative order of rows with equal
  `last_accessed` unspecified (SQLite gives no guarantee).  The embedding
  takes a tie-breaking rank `tie : String → Nat` as a parameter of the
  eviction step and sorts by `last_accessed`, breaking ties by `tie` on the
  primary key; theorems quantify over `tie` (universally where the code's
  behaviour is tie-independent, existentially to exhibit behaviours the
  unspecified order permits).
-/

/-- `require_cache_enabled` from `cache.py`: the decorator checks
`lotus.settings.enable_cache` and, when it is off, returns `None` without
calling the wrapped function.  `skip` is the "nothing happened" result the
caller observes in that case; `body` is the wrapped function. -/
def require_cache_enabled (flag : Bool) {β : Type _} (skip : β) (body : Unit → β) : β :=
  if flag then body () else skip

/-- State of `InMemoryCache`: the `OrderedDict` (insertion order, head =
coldest) and `max_size` (a Python `int`, set unvalidated by
`Cache.__init__`). -/
structure InMemoryCache (α : Type _) where
  cache : List (String × α)
  max_size : Int
  deriving Repr, DecidableEq

namespace InMemoryCache

/-- `InMemoryCache.__init__(max_size)`: stores `max_size` (no validation in
`Cache.__init__`) and starts from an empty `OrderedDict`. -/
def init (α : Type _) (max_size : Int) : InMemoryCache α :=
  { cache := [], max_size := max_size }

/-- `OrderedDict.__setitem__`: overwrite in place if the key is present
(position preserved, as in CPython), else append at the hot end. -/
def odSet (l : List (String × α)) (k : String) (v : α) : List (String × α) :=
  if l.any (fun p => p.1 = k) then
    l.map (fun p => if p.1 = k then (k, v) else p)
  else
    l ++ [(k, v)]

/-- `InMemoryCache.get` (wrapped by `require_cache_enabled`): returns
`self.cache.get(key)`; it does not touch the order, so the state is
unchanged and only the looked-up value is produced. -/
def get (flag : Bool) (c : InMemoryCache α) (k : String) : Option α :=
  require_cache_enabled flag none fun _ =>
    (c.cache.find? (fun p => p.1 = k)).map (fun p => p.2)

/-- `InMemoryCache.insert` (wrapped by `require_cache_enabled`):
`self.cache[key] = value`, then if `len(self.cache) > self.max_size`
evict with `popitem(last=False)` (drop the head). -/
def insert (flag : Bool) (c : InMemoryCache α) (k : String) (v : α) : InMemoryCache α :=
  require_cache_enabled flag c fun _ =>
    let l := odSet c.cache k v
    if (l.length : Int) > c.max_size then
      { c with cache := l.tail }
    else
      { c with cache := l }

/-- `InMemoryCache.reset` (not decorated): clear the dict; replace
`max_size` only when a new one is passed. -/
def reset (c : InMemoryCache α) (max_size : Option Int) : InMemoryCache α :=
  { cache := [], max_size := max_size.getD c.max_size }

/-- Run a sequence of enabled inserts left to right. -/
def runInserts (c : InMemoryCache α) (ops : List (String × α)) : InMemoryCache α :=
  ops.foldl (fun s p => insert true s p.1 p.2) c

end InMemoryCache

/-- One row of the SQLite table `cache (key TEXT PRIMARY KEY, value BLOB,
last_accessed INTEGER)`.  The pickled blob is represented by the value it
unpickles to. -/
structure Row (α : Type _) where
  key : String
  value : α
  last_accessed : Int
  deriving Repr, DecidableEq

/-- State of `SQLiteCache`: the table rows in rowid order and `max_size`. -/
structure SQLiteCache (α : Type _) where
  rows : List (Row α)
  max_size : Int
  deriving Repr, DecidableEq

namespace SQLiteCache

/-- `SQLiteCache.__init__(max_size, cache_dir)`: stores `max_size`
unvalidated, opens (or creates) the store at the fixed path and runs the
idempotent `CREATE TABLE IF NOT EXISTS`; rows already in the file persist,
so the initial table contents are a parameter. -/
def init (max_size : Int) (persisted : List (Row α)) : SQLiteCache α :=
  { rows := persisted, max_size := max_size }

/-- The comparator realised by `ORDER BY last_accessed ASC` once the
unspecified order of equal timestamps is fixed by the rank `tie`. -/
def rowLE (tie : String → Nat) (r s : Row α) : Prop :=
  r.last_accessed < s.last_accessed ∨
    (r.last_accessed = s.last_accessed ∧ tie r.key ≤ tie s.key)

instance rowLE.decidableRel (tie : String → Nat) : DecidableRel (rowLE (α := α) tie) :=
  fun r s => by unfold rowLE; infer_instance

instance rowLE.isTotal (tie : String → Nat) : IsTotal (Row α) (rowLE tie) :=
  ⟨fun r s => by unfold rowLE; omega⟩

instance rowLE.isTrans (tie : String → Nat) : IsTrans (Row α) (rowLE tie) :=
  ⟨fun r s t hrs hst => by unfold rowLE at *; omega⟩

/-- `INSERT OR REPLACE INTO cache VALUES (key, value, now)`: drop any row
with this primary key, append the new row with a fresh rowid. -/
def upsert (rows : List (Row α)) (k : String) (v : α) (now : Int) : List (Row α) :=
  rows.filter (fun r => r.key ≠ k) ++ [⟨k, v, now⟩]

/-- `SQLiteCache._enforce_size_limit`: count rows; if `count > max_size`,
delete the `count - max_size` keys selected by
`SELECT key FROM cache ORDER BY last_accessed ASC LIMIT num_to_delete`
(ties resolved by `tie`). -/
def enforce_size_limit (tie : String → Nat) (rows : List (Row α)) (max_size : Int) :
    List (Row α) :=
  if (rows.length : Int) > max_size then
    let num_to_delete : Nat := ((rows.length : Int) - max_size).toNat
    let victims : List String :=
      ((rows.insertionSort (rowLE tie)).take num_to_delete).map (fun r => r.key)
    rows.filter (fun r => ¬ victims.contains r.key)
  else
    rows

/-- `SQLiteCache.get` (wrapped by `require_cache_enabled`): select the row
by key; on a hit, update its `last_accessed` to `now` and return the
unpickled value; on a miss return `None`.  Result: (value, new state). -/
def get (flag : Bool) (c : SQLiteCache α) (k : String) (now : Int) :
    Option α × SQLiteCache α :=
  require_cache_enabled flag (none, c) fun _ =>
    match c.rows.find? (fun r => r.key = k) with
    | some r =>
        (some r.value,
         { c with rows := c.rows.map (fun s =>
             if s.key = k then { s with last_accessed := now } else s) })
    | none => (none, c)

/-- `SQLiteCache.insert` (wrapped by `require_cache_enabled`): upsert the
row with `last_accessed = now`, then `_enforce_size_limit`. -/
def insert (tie : String → Nat) (flag : Bool) (c : SQLiteCache α) (k : String) (v : α)
    (now : Int) : SQLiteCache α :=
  require_cache_enabled flag c fun _ =>
    { c with rows := enforce_size_limit tie (upsert c.rows k v now) c.max_size }

/-- `SQLiteCache.reset` (not decorated): `DELETE FROM cache`; replace
`max_size` only when a new one is passed. -/
def reset (c : SQLiteCache α) (max_size : Option Int) : SQLiteCache α :=
  { rows := [], max_size := max_size.getD c.max_size }

/-- Run a sequence of enabled inserts left to right; each op carries the
key, the value and the `int(time.time())` observed by that call. -/
def runInserts (tie : String → Nat) (c : SQLiteCache α) (ops : List (String × α × Int)) :
    SQLiteCache α :=
  ops.foldl (fun s p => insert tie true s p.1 p.2.1 p.2.2) c

end SQLiteCache

/-! ## Helper lemmas about the durable backend -/

namespace SQLiteCache

/-- Upserting preserves distinctness of primary keys. -/
theorem upsert_nodupKeys (rows : List (Row α)) (k : String) (v : α) (now : Int)
    (h : (rows.map Row.key).Nodup) : ((upsert rows k v now).map Row.key).Nodup := by
  unfold upsert
  rw [List.map_append, List.nodup_append]
  refine ⟨((List.filter_sublist rows).map Row.key).nodup h, List.nodup_singleton _, ?_⟩
  intro x hx
  simp only [List.mem_map, List.mem_filter, decide_eq_true_eq] at hx
  obtain ⟨r, ⟨-, hr⟩, rfl⟩ := hx
  simpa using hr

/-- Eviction only deletes rows: the result is a sublist (rowid order kept). -/
theorem enforce_sublist (tie : String → Nat) (rows : List (Row α)) (N : Int) :
    (enforce_size_limit tie rows N).Sublist rows := by
  unfold enforce_size_limit
  split
  · exact List.filter_sublist rows
  · exact List.Sublist.refl rows

/-- Eviction preserves distinctness of primary keys. -/
theorem enforce_nodupKeys (tie : String → Nat) (rows : List (Row α)) (N : Int)
    (h : (rows.map Row.key).Nodup) :
    ((enforce_size_limit tie rows N).map Row.key).Nodup :=
  ((enforce_sublist tie rows N).map Row.key).nodup h

/-- When the table is within the bound, eviction does nothing. -/
theorem enforce_of_le (tie : String → Nat) (rows : List (Row α)) (N : Int)
    (h : (rows.length : Int) ≤ N) : enforce_size_limit tie rows N = rows := by
  unfold enforce_size_limit
  rw [if_neg]
  omega

/-- When the table is over the bound, the surviving rows are (a permutation
of) what remains of the `rowLE`-sorted table after dropping the
`count - max_size` victims from its cold end. -/
theorem enforce_perm_drop (tie : String → Nat) (rows : List (Row α)) (N : Int)
    (hnd : (rows.map Row.key).Nodup) (hover : N < (rows.length : Int)) :
    (enforce_size_limit tie rows N).Perm
      ((rows.insertionSort (rowLE tie)).drop ((rows.length : Int) - N).toNat) := by
  unfold enforce_size_limit
  rw [if_pos (by omega)]
  set n : Nat := ((rows.length : Int) - N).toNat with hn
  set sorted : List (Row α) := rows.insertionSort (rowLE tie) with hsorted
  set victims : List String := (sorted.take n).map Row.key with hvictims
  have hperm : sorted.Perm rows := List.perm_insertionSort _ rows
  have hsortnd : (sorted.map Row.key).Nodup := ((hperm.map Row.key).nodup_iff).mpr hnd
  have hsplitkeys : (sorted.map Row.key) =
      (sorted.take n).map Row.key ++ (sorted.drop n).map Row.key := by
    rw [← List.map_append, List.take_append_drop]
  have hdisj : ∀ x ∈ victims, x ∉ (sorted.drop n).map Row.key := by
    rw [hsplitkeys] at hsortnd
    intro x hx
    exact (List.nodup_append.mp hsortnd).2.2 hx
  have hstep : (rows.filter (fun r => ¬ victims.contains r.key)).Perm
      (sorted.filter (fun r => ¬ victims.contains r.key)) :=
    (hperm.filter _).symm
  refine hstep.trans ?_
  have : sorted.filter (fun r => ¬ victims.contains r.key)
      = (sorted.take n).filter (fun r => ¬ victims.contains r.key)
        ++ (sorted.drop n).filter (fun r => ¬ victims.contains r.key) := by
    rw [← List.filter_append, List.take_append_drop]
  rw [this]
  have htake : (sorted.take n).filter (fun r => ¬ victims.contains r.key) = [] := by
    rw [List.filter_eq_nil_iff]
    intro r hr
    simp only [decide_not, Bool.not_eq_true', decide_eq_false_iff_not, not_not]
    exact List.elem_iff.mpr (List.mem_map_of_mem Row.key hr)
  have hdrop : (sorted.drop n).filter (fun r => ¬ victims.contains r.key)
      = sorted.drop n := by
    rw [List.filter_eq_self]
    intro r hr
    simp only [decide_not, Bool.not_eq_true', decide_eq_false_iff_not]
    intro hc
    exact hdisj r.key (List.elem_iff.mp hc) (List.mem_map_of_mem Row.key hr)
  rw [htake, hdrop, List.nil_append]

/-- Over the bound, eviction leaves exactly `max_size` rows. -/
theorem enforce_length_of_over (tie : String → Nat) (rows : List (Row α)) (N : Int)
    (hnd : (rows.map Row.key).Nodup) (hover : N < (rows.length : Int)) (hN : 0 ≤ N) :
    ((enforce_size_limit tie rows N).length : Int) = N := by
  have h := (enforce_perm_drop tie rows N hnd hover).length_eq
  rw [List.length_drop, List.length_insertionSort] at h
  omega

/-- After any enabled `insert`, the durable row count is at most `max_size`
(whatever it was before), provided the capacity is non-negative and the
primary keys are distinct. -/
theorem insert_length_le (tie : String → Nat) (d : SQLiteCache α) (k : String) (v : α)
    (now : Int) (hN : 0 ≤ d.max_size) (hnd : (d.rows.map Row.key).Nodup) :
    (((insert tie true d k v now).rows.length : Int)) ≤ d.max_size := by
  show ((enforce_size_limit tie (upsert d.rows k v now) d.max_size).length : Int) ≤ _
  by_cases hle : ((upsert d.rows k v now).length : Int) ≤ d.max_size
  · rw [enforce_of_le tie _ _ hle]
    exact hle
  · rw [enforce_length_of_over tie _ _ (upsert_nodupKeys d.rows k v now hnd) (by omega) hN]

/-- Every evicted row's timestamp is at most every surviving row's. -/
theorem enforce_evicted_le_kept (tie : String → Nat) (rows : List (Row α)) (N : Int)
    (hnd : (rows.map Row.key).Nodup) :
    ∀ r ∈ rows, r ∉ enforce_size_limit tie rows N →
      ∀ s ∈ enforce_size_limit tie rows N, r.last_accessed ≤ s.last_accessed := by
  intro r hr hrout s hs
  by_cases hover : N < (rows.length : Int)
  case neg =>
    rw [enforce_of_le tie rows N (by omega)] at hrout
    exact absurd hr hrout
  have hperm := enforce_perm_drop tie rows N hnd hover
  set n : Nat := ((rows.length : Int) - N).toNat with hn
  set sorted : List (Row α) := rows.insertionSort (rowLE tie) with hsorted
  have hsperm : sorted.Perm rows := List.perm_insertionSort _ rows
  have hsdrop : s ∈ sorted.drop n := hperm.mem_iff.mp hs
  have hrsorted : r ∈ sorted := hsperm.mem_iff.mpr hr
  have hrtake : r ∈ sorted.take n := by
    rw [← List.take_append_drop n sorted] at hrsorted
    rcases List.mem_append.mp hrsorted with h | h
    · exact h
    · exact absurd (hperm.mem_iff.mpr h) hrout
  have hpw : sorted.Pairwise (rowLE tie) := List.sorted_insertionSort _ rows
  rw [← List.take_append_drop n sorted, List.pairwise_append] at hpw
  have hle := hpw.2.2 r hrtake s hsdrop
  unfold rowLE at hle
  omega

/-- A row strictly fresher than every other row survives eviction whenever
the capacity is at least 1. -/
theorem enforce_keeps_freshest (tie : String → Nat) (rows : List (Row α)) (N : Int)
    (hnd : (rows.map Row.key).Nodup) (hN : 1 ≤ N) (m : Row α) (hm : m ∈ rows)
    (hf : ∀ r ∈ rows, r ≠ m → r.last_accessed < m.last_accessed) :
    m ∈ enforce_size_limit tie rows N := by
  by_cases hover : N < (rows.length : Int)
  case neg =>
    rw [enforce_of_le tie rows N (by omega)]
    exact hm
  by_contra hout
  set n : Nat := ((rows.length : Int) - N).toNat with hn
  set sorted : List (Row α) := rows.insertionSort (rowLE tie) with hsorted
  have hperm := enforce_perm_drop tie rows N hnd hover
  have hsperm : sorted.Perm rows := List.perm_insertionSort _ rows
  have hmsorted : m ∈ sorted := hsperm.mem_iff.mpr hm
  have hmtake : m ∈ sorted.take n := by
    rw [← List.take_append_drop n sorted] at hmsorted
    rcases List.mem_append.mp hmsorted with h | h
    · exact h
    · exact absurd (hperm.mem_iff.mpr h) hout
  have hslen : sorted.length = rows.length := hsperm.length_eq
  have hdropne : sorted.drop n ≠ [] := by
    intro hnil
    have hdl : (sorted.drop n).length = sorted.length - n := List.length_drop n sorted
    rw [hnil] at hdl
    simp only [List.length_nil] at hdl
    omega
  obtain ⟨y, hy⟩ := List.exists_mem_of_ne_nil _ hdropne
  have hysorted : y ∈ sorted := List.mem_of_mem_drop hy
  have hyrows : y ∈ rows := hsperm.mem_iff.mp hysorted
  have hsnd : sorted.Nodup := hsperm.nodup_iff.mpr (List.Nodup.of_map Row.key hnd)
  have hym : y ≠ m := by
    rw [← List.take_append_drop n sorted, List.nodup_append] at hsnd
    intro heq
    exact hsnd.2.2 hmtake (heq ▸ hy)
  have hylt : y.last_accessed < m.last_accessed := hf y hyrows hym
  have hpw : sorted.Pairwise (rowLE tie) := List.sorted_insertionSort _ rows
  rw [← List.take_append_drop n sorted, List.pairwise_append] at hpw
  have hle := hpw.2.2 m hmtake y hy
  unfold rowLE at hle
  omega

/-- Distinct primary keys determine rows uniquely. -/
theorem mem_key_unique {l : List (Row α)} (hnd : (l.map Row.key).Nodup) {r m : Row α}
    (hr : r ∈ l) (hm : m ∈ l) (hkey : r.key = m.key) : r = m :=
  List.inj_on_of_nodup_map hnd hr hm hkey

/-- `find?` by key returns the unique row holding that key. -/
theorem find?_key_of_mem_unique (l : List (Row α)) (m : Row α) (hm : m ∈ l)
    (huniq : ∀ r ∈ l, r.key = m.key → r = m) :
    l.find? (fun r => r.key = m.key) = some m := by
  induction l with
  | nil => simp at hm
  | cons a t ih =>
    by_cases hak : a.key = m.key
    · have ham : a = m := huniq a (List.mem_cons_self a t) hak
      rw [List.find?_cons_of_pos _ (by simp [hak]), ham]
    · have hmt : m ∈ t := by
        rcases List.mem_cons.mp hm with rfl | h
        · exact absurd rfl hak
        · exact h
      rw [List.find?_cons_of_neg _ (by simp [hak])]
      exact ih hmt (fun r hr => huniq r (List.mem_cons_of_mem a hr))

/-- Round trip on the durable backend: with capacity at least 1, distinct
keys and a strictly fresh timestamp, a `get` immediately after an `insert`
returns the inserted value. -/
theorem insert_get_round_trip (tie : String → Nat) (d : SQLiteCache α) (k : String)
    (v : α) (now later : Int) (hN : 1 ≤ d.max_size) (hnd : (d.rows.map Row.key).Nodup)
    (hts : ∀ r ∈ d.rows, r.last_accessed < now) :
    (get true (insert tie true d k v now) k later).1 = some v := by
  have hundup := upsert_nodupKeys d.rows k v now hnd
  have hmem : (⟨k, v, now⟩ : Row α) ∈ upsert d.rows k v now :=
    List.mem_append_right _ (List.mem_singleton_self _)
  have hf : ∀ r ∈ upsert d.rows k v now, r ≠ (⟨k, v, now⟩ : Row α) →
      r.last_accessed < now := by
    intro r hr hne
    rcases List.mem_append.mp hr with h | h
    · exact hts r (List.mem_of_mem_filter h)
    · rw [List.mem_singleton] at h
      exact absurd h hne
  have hkept : (⟨k, v, now⟩ : Row α) ∈
      enforce_size_limit tie (upsert d.rows k v now) d.max_size :=
    enforce_keeps_freshest tie _ d.max_size hundup hN _ hmem hf
  have hkeptnd := enforce_nodupKeys tie (upsert d.rows k v now) d.max_size hundup
  have hfind : (enforce_size_limit tie (upsert d.rows k v now) d.max_size).find?
      (fun r => r.key = k) = some ⟨k, v, now⟩ :=
    find?_key_of_mem_unique _ ⟨k, v, now⟩ hkept
      (fun r hr hkey => mem_key_unique hkeptnd hr hkept hkey)
  show (get true
      ⟨enforce_size_limit tie (upsert d.rows k v now) d.max_size, d.max_size⟩ k later).1
      = some v
  unfold get require_cache_enabled
  simp only [if_true, hfind]

end SQLiteCache

/-! ## Helper lemmas about the in-memory backend -/

namespace InMemoryCache

/-- An `OrderedDict` assignment grows the dict by at most one entry. -/
theorem odSet_length_le (l : List (String × α)) (k : String) (v : α) :
    (odSet l k v).length ≤ l.length + 1 := by
  unfold odSet
  split <;> simp

/-- An enabled insert keeps the in-memory entry count within `max_size`
whenever it was within `max_size` before the call. -/
theorem insert_len_le (c : InMemoryCache α) (k : String) (v : α)
    (h : (c.cache.length : Int) ≤ c.max_size) :
    (((insert true c k v).cache.length : Int)) ≤ c.max_size := by
  have hb := odSet_length_le c.cache k v
  show (((if ((odSet c.cache k v).length : Int) > c.max_size then
      { c with cache := (odSet c.cache k v).tail }
    else
      { c with cache := odSet c.cache k v }) : InMemoryCache α).cache.length : Int)
    ≤ c.max_size
  split
  · show (((odSet c.cache k v).tail).length : Int) ≤ c.max_size
    simp only [List.length_tail]
    omega
  · show (((odSet c.cache k v)).length : Int) ≤ c.max_size
    omega

/-- An enabled insert never changes `max_size`. -/
theorem insert_keeps_max_size (flag : Bool) (c : InMemoryCache α) (k : String) (v : α) :
    (insert flag c k v).max_size = c.max_size := by
  cases flag
  · rfl
  · show ((if ((odSet c.cache k v).length : Int) > c.max_size then
        { c with cache := (odSet c.cache k v).tail }
      else
        { c with cache := odSet c.cache k v }) : InMemoryCache α).max_size = c.max_size
    split <;> rfl

/-- Overwriting every stored entry holding key `k` makes `find?` by `k`
return the fresh pair, provided some entry held `k`. -/
theorem find?_mapOverwrite (l : List (String × α)) (k : String) (v : α)
    (h : l.any (fun p => p.1 = k) = true) :
    (l.map (fun p => if p.1 = k then (k, v) else p)).find? (fun p => p.1 = k)
      = some (k, v) := by
  induction l with
  | nil => simp at h
  | cons a t ih =>
    by_cases hak : a.1 = k
    · simp [hak]
    · have h' : t.any (fun p => p.1 = k) = true := by
        simpa [List.any_cons, hak] using h
      simpa [hak] using ih h'

/-- `find?` by `k` after an `OrderedDict` assignment of `k` returns the
assigned pair. -/
theorem find?_odSet (l : List (String × α)) (k : String) (v : α) :
    (odSet l k v).find? (fun p => p.1 = k) = some (k, v) := by
  unfold odSet
  split
  case isTrue h => exact find?_mapOverwrite l k v h
  case isFalse h =>
    have hnone : l.find? (fun p => p.1 = k) = none := by
      rw [List.find?_eq_none]
      intro p hp
      simp only [List.any_eq_true, decide_eq_true_eq, not_exists, not_and] at h
      simpa using h p hp
    rw [List.find?_append, hnone]
    simp

/-- After an enabled insert of `(k, v)` from a within-capacity state with
positive capacity, `find?` by `k` returns `(k, v)` (the fresh pair is never
the eviction victim). -/
theorem insert_find (c : InMemoryCache α) (k : String) (v : α)
    (hN : 0 < c.max_size) (hlen : (c.cache.length : Int) ≤ c.max_size) :
    (insert true c k v).cache.find? (fun p => p.1 = k) = some (k, v) := by
  show ((if ((odSet c.cache k v).length : Int) > c.max_size then
      { c with cache := (odSet c.cache k v).tail }
    else
      { c with cache := odSet c.cache k v }) : InMemoryCache α).cache.find?
      (fun p => p.1 = k) = some (k, v)
  split
  case isFalse h => exact find?_odSet c.cache k v
  case isTrue hgt =>
    by_cases hany : c.cache.any (fun p => p.1 = k) = true
    · exfalso
      have hsame : (odSet c.cache k v).length = c.cache.length := by
        unfold odSet
        rw [if_pos hany]
        simp
      omega
    · have hods : odSet c.cache k v = c.cache ++ [(k, v)] := by
        unfold odSet
        rw [if_neg hany]
      rw [hods] at hgt ⊢
      match hcc : c.cache, hgt with
      | [], hgt => simp at hgt; omega
      | a :: rest, hgt =>
        show ((a :: rest ++ [(k, v)]).tail).find? (fun p => p.1 = k) = some (k, v)
        have hrest : rest.find? (fun p => p.1 = k) = none := by
          rw [List.find?_eq_none]
          intro p hp
          rw [hcc] at hany
          simp only [List.any_cons, Bool.or_eq_true, List.any_eq_true,
            decide_eq_true_eq, not_or, not_exists, not_and] at hany
          simpa using hany.2 p hp
        rw [List.cons_append, List.tail_cons, List.find?_append, hrest]
        simp

/-- Overwriting a present key is position-preserving and never evicts from
a within-capacity state: the entry count is unchanged. -/
theorem insert_overwrite (c : InMemoryCache α) (k : String) (v : α)
    (hany : c.cache.any (fun p => p.1 = k) = true)
    (hlen : (c.cache.length : Int) ≤ c.max_size) :
    (insert true c k v).cache = c.cache.map (fun p => if p.1 = k then (k, v) else p) ∧
    (insert true c k v).cache.length = c.cache.length := by
  have hods : odSet c.cache k v = c.cache.map (fun p => if p.1 = k then (k, v) else p) := by
    unfold odSet
    rw [if_pos hany]
  have hsame : (odSet c.cache k v).length = c.cache.length := by
    rw [hods]
    simp
  show (((if ((odSet c.cache k v).length : Int) > c.max_size then
      { c with cache := (odSet c.cache k v).tail }
    else
      { c with cache := odSet c.cache k v }) : InMemoryCache α).cache = _) ∧
    (((if ((odSet c.cache k v).length : Int) > c.max_size then
      { c with cache := (odSet c.cache k v).tail }
    else
      { c with cache := odSet c.cache k v }) : InMemoryCache α).cache.length = _)
  rw [if_neg (by omega)]
  exact ⟨hods, hsame⟩

end InMemoryCache

/-! ## Further helper lemmas about the durable backend -/

namespace SQLiteCache

/-- An enabled insert never changes `max_size`. -/
theorem insert_max_size (tie : String → Nat) (flag : Bool) (d : SQLiteCache α)
    (k : String) (v : α) (now : Int) :
    (insert tie flag d k v now).max_size = d.max_size := by
  cases flag <;> rfl

/-- An enabled insert preserves distinctness of primary keys. -/
theorem insert_nodupKeys (tie : String → Nat) (d : SQLiteCache α) (k : String) (v : α)
    (now : Int) (hnd : (d.rows.map Row.key).Nodup) :
    (((insert tie true d k v now).rows).map Row.key).Nodup :=
  enforce_nodupKeys tie _ _ (upsert_nodupKeys d.rows k v now hnd)

/-- The freshly upserted row survives eviction when capacity is at least 1,
keys are distinct and its timestamp is strictly newest. -/
theorem insert_mem_inserted (tie : String → Nat) (d : SQLiteCache α) (k : String)
    (v : α) (now : Int) (hN : 1 ≤ d.max_size) (hnd : (d.rows.map Row.key).Nodup)
    (hts : ∀ r ∈ d.rows, r.last_accessed < now) :
    (⟨k, v, now⟩ : Row α) ∈ (insert tie true d k v now).rows := by
  have hundup := upsert_nodupKeys d.rows k v now hnd
  have hmem : (⟨k, v, now⟩ : Row α) ∈ upsert d.rows k v now :=
    List.mem_append_right _ (List.mem_singleton_self _)
  have hf : ∀ r ∈ upsert d.rows k v now, r ≠ (⟨k, v, now⟩ : Row α) →
      r.last_accessed < now := by
    intro r hr hne
    rcases List.mem_append.mp hr with h | h
    · exact hts r (List.mem_of_mem_filter h)
    · rw [List.mem_singleton] at h
      exact absurd h hne
  exact enforce_keeps_freshest tie _ d.max_size hundup hN _ hmem hf

/-- Upserting a key that is present (under distinct keys) leaves the row
count unchanged: the filter removes exactly one row. -/
theorem filter_ne_key_length (l : List (Row α)) (k : String)
    (hnd : (l.map Row.key).Nodup) (m : Row α) (hm : m ∈ l) (hk : m.key = k) :
    (l.filter (fun r => r.key ≠ k)).length + 1 = l.length := by
  induction l with
  | nil => simp at hm
  | cons a t ih =>
    simp only [List.map_cons, List.nodup_cons] at hnd
    rcases List.mem_cons.mp hm with rfl | hmt
    · have hfilt : t.filter (fun r => r.key ≠ k) = t := by
        rw [List.filter_eq_self]
        intro b hb
        simp only [decide_eq_true_eq, ne_eq]
        intro hbk
        exact hnd.1 (by rw [hk, ← hbk]; exact List.mem_map_of_mem Row.key hb)
      rw [List.filter_cons, if_neg (by simp [hk])]
      rw [hfilt]
      simp
    · have hak : a.key ≠ k := by
        intro h
        exact hnd.1 (by rw [h, ← hk]; exact List.mem_map_of_mem Row.key hmt)
      rw [List.filter_cons, if_pos (by simpa using hak)]
      have := ih hnd.2 hmt
      simp only [List.length_cons]
      omega

/-- The value component of an enabled `get` is the value of the row found
by key, when any. -/
theorem get_fst (d : SQLiteCache α) (k : String) (now : Int) :
    (get true d k now).1 = (d.rows.find? (fun r => r.key = k)).map Row.value := by
  unfold get require_cache_enabled
  rcases hf : d.rows.find? (fun r => r.key = k) with _ | r <;> simp [hf]

/-- Upserting always yields one more row than the key-distinct remainder. -/
theorem upsert_length (rows : List (Row α)) (k : String) (v : α) (now : Int) :
    (upsert rows k v now).length = (rows.filter (fun r => r.key ≠ k)).length + 1 := by
  unfold upsert
  simp

/-- `find?` by the upserted key on the raw upserted table returns the fresh
row. -/
theorem find?_upsert (rows : List (Row α)) (k : String) (v : α) (now : Int) :
    (upsert rows k v now).find? (fun r => r.key = k) = some ⟨k, v, now⟩ := by
  unfold upsert
  have hnone : (rows.filter (fun r => r.key ≠ k)).find? (fun r => r.key = k) = none := by
    rw [List.find?_eq_none]
    intro r hr
    have := List.of_mem_filter hr
    simpa using this
  rw [List.find?_append, hnone]
  simp

end SQLiteCache

/-! ## Theorems settling the claims -/

/-- C2 (failing input for the LRU claim): with capacity 2 and caching
enabled, after `insert("a",1)`, `insert("b",2)`, `get("a")` (a hit that,
per the spec, should make `"a"` most-recently-used), `insert("c",3)`, the
code evicts `"a"`: `get("a")` is absent while `get("b")` and `get("c")`
hit.  The claim says `"b"` is the victim.  `InMemoryCache.get` performs no
reordering (`self.cache.get(key)` only), so the read of `"a"` does not
refresh its recency and eviction follows pure insertion order, contrary to
the code's own `# LRU eviction` comment and the spec. -/
theorem C2_lru_refresh_failing_input :
    (let c0 := InMemoryCache.init Nat 2
     let c1 := InMemoryCache.insert true c0 "a" 1
     let c2 := InMemoryCache.insert true c1 "b" 2
     let c3 := InMemoryCache.insert true c2 "c" 3
     InMemoryCache.get true c2 "a" = some 1 ∧
     InMemoryCache.get true c3 "a" = none ∧
     InMemoryCache.get true c3 "b" = some 2 ∧
     InMemoryCache.get true c3 "c" = some 3) := by
  decide

/-- C4: with the enable flag off, `get` returns absent and `insert` leaves
the stored state completely unchanged, for both backends and for every
state — including states that already store the queried key. -/
theorem C4_disabled_gate (α : Type) (c : InMemoryCache α) (d : SQLiteCache α)
    (k : String) (v : α) (now : Int) (tie : String → Nat) :
    InMemoryCache.get false c k = none ∧
    InMemoryCache.insert false c k v = c ∧
    SQLiteCache.get false d k now = (none, d) ∧
    SQLiteCache.insert tie false d k v now = d := by
  refine ⟨rfl, rfl, rfl, rfl⟩

/-- C8: `reset` removes every stored entry on either backend (every key
reads back absent afterwards, whatever the flag); a supplied new capacity
replaces the old one and an omitted capacity leaves it unchanged. -/
theorem C8_reset (α : Type) (c : InMemoryCache α) (d : SQLiteCache α) (m : Int)
    (flag : Bool) (k : String) (now : Int) :
    (InMemoryCache.reset c (some m)).cache = [] ∧
    (InMemoryCache.reset c none).cache = [] ∧
    (InMemoryCache.reset c (some m)).max_size = m ∧
    (InMemoryCache.reset c none).max_size = c.max_size ∧
    InMemoryCache.get flag (InMemoryCache.reset c (some m)) k = none ∧
    InMemoryCache.get flag (InMemoryCache.reset c none) k = none ∧
    (SQLiteCache.reset d (some m)).rows = [] ∧
    (SQLiteCache.reset d none).rows = [] ∧
    (SQLiteCache.reset d (some m)).max_size = m ∧
    (SQLiteCache.reset d none).max_size = d.max_size ∧
    (SQLiteCache.get flag (SQLiteCache.reset d (some m)) k now).1 = none ∧
    (SQLiteCache.get flag (SQLiteCache.reset d none) k now).1 = none := by
  cases flag <;>
    simp [InMemoryCache.reset, SQLiteCache.reset, InMemoryCache.get, SQLiteCache.get,
      require_cache_enabled]

/-- C10: `reset` is not wrapped by `require_cache_enabled`: even with the
flag off — when `insert` is the identity on the state and `get` always
returns absent — `reset` still clears every entry and still installs a
supplied new capacity, on both backends. -/
theorem C10_reset_unguarded (α : Type) (c : InMemoryCache α) (d : SQLiteCache α)
    (m : Int) (o : Option Int) (k : String) (v : α) (now : Int) (tie : String → Nat) :
    InMemoryCache.insert false c k v = c ∧
    InMemoryCache.get false c k = none ∧
    (InMemoryCache.reset c o).cache = [] ∧
    (InMemoryCache.reset c (some m)).max_size = m ∧
    SQLiteCache.insert tie false d k v now = d ∧
    SQLiteCache.get false d k now = (none, d) ∧
    (SQLiteCache.reset d o).rows = [] ∧
    (SQLiteCache.reset d (some m)).max_size = m := by
  exact ⟨rfl, rfl, rfl, rfl, rfl, rfl, rfl, rfl⟩

/-- C9 (counterexample): non-positive capacities are not rejected.
`Cache.__init__` stores `max_size` without validation and `reset` installs
any supplied value, so `0`, `-1` and `-2` all become the live capacity
bound, and an insert against such a bound runs without error (evicting the
entry it just wrote). -/
theorem C9_nonpositive_accepted_counterexample :
    (InMemoryCache.init Nat 0).max_size = 0 ∧
    (InMemoryCache.insert true (InMemoryCache.init Nat 0) "k" 1).cache = [] ∧
    (SQLiteCache.init (-1) ([] : List (Row Nat))).max_size = -1 ∧
    (InMemoryCache.reset (InMemoryCache.init Nat 3) (some (-2))).max_size = -2 ∧
    (SQLiteCache.reset (SQLiteCache.init 3 ([] : List (Row Nat))) (some 0)).max_size = 0 := by
  decide

/-- C9 (amended): a non-positive capacity is accepted at construction and
at `reset` on either backend and becomes the cache's capacity bound; no
validation is performed (and an in-memory insert under such a bound
immediately evicts what it wrote, leaving the cache empty). -/
theorem C9_nonpositive_capacity_amended (m : Int) (hm : m ≤ 0) (α : Type)
    (c : InMemoryCache α) (d : SQLiteCache α) (k : String) (v : α) :
    (InMemoryCache.init α m).max_size = m ∧
    (SQLiteCache.init m ([] : List (Row α))).max_size = m ∧
    (InMemoryCache.reset c (some m)).max_size = m ∧
    (SQLiteCache.reset d (some m)).max_size = m ∧
    (InMemoryCache.insert true (InMemoryCache.init α m) k v).cache = [] := by
  refine ⟨rfl, rfl, rfl, rfl, ?_⟩
  have h1 : m < (1 : Int) := by omega
  simp [InMemoryCache.insert, InMemoryCache.init, InMemoryCache.odSet,
    require_cache_enabled, h1]

/-- C9 (witness for the amended theorem at capacity 0). -/
theorem C9_nonpositive_capacity_amended_witness :
    (InMemoryCache.init Nat 0).max_size = 0 ∧
    (SQLiteCache.init 0 ([] : List (Row Nat))).max_size = 0 ∧
    (InMemoryCache.reset (InMemoryCache.init Nat 2) (some 0)).max_size = 0 ∧
    (SQLiteCache.reset (SQLiteCache.init 2 ([] : List (Row Nat))) (some 0)).max_size = 0 ∧
    (InMemoryCache.insert true (InMemoryCache.init Nat 0) "k" 7).cache = [] :=
  C9_nonpositive_capacity_amended 0 (by decide) Nat (InMemoryCache.init Nat 2)
    (SQLiteCache.init 2 ([] : List (Row Nat))) "k" 7

/-- C1: for either backend with positive capacity `N`, an enabled `insert`
from a state with at most `N` entries ends with at most `N` entries (for
the durable backend, from any key-distinct state at all); hence every
sequence of enabled inserts from an empty cache keeps the count at most
`N` after each insert. -/
theorem C1_capacity_invariant (α : Type) (N : Int) (hN : 0 < N) :
    (∀ (c : InMemoryCache α) (k : String) (v : α), c.max_size = N →
      (c.cache.length : Int) ≤ N →
      (((InMemoryCache.insert true c k v).cache.length : Int) ≤ N)) ∧
    (∀ (tie : String → Nat) (d : SQLiteCache α) (k : String) (v : α) (now : Int),
      d.max_size = N → (d.rows.map Row.key).Nodup → (d.rows.length : Int) ≤ N →
      (((SQLiteCache.insert tie true d k v now).rows.length : Int) ≤ N)) ∧
    (∀ (ops : List (String × α)),
      (((InMemoryCache.runInserts (InMemoryCache.init α N) ops).cache.length : Int) ≤ N)) ∧
    (∀ (tie : String → Nat) (ops : List (String × α × Int)),
      (((SQLiteCache.runInserts tie (SQLiteCache.init N []) ops).rows.length : Int) ≤ N)) := by
  have hmemstep : ∀ (c : InMemoryCache α) (k : String) (v : α), c.max_size = N →
      (c.cache.length : Int) ≤ N →
      (((InMemoryCache.insert true c k v).cache.length : Int) ≤ N) := by
    intro c k v h1 h2
    have := InMemoryCache.insert_len_le c k v (by rw [h1]; exact h2)
    rwa [h1] at this
  have hsqlstep : ∀ (tie : String → Nat) (d : SQLiteCache α) (k : String) (v : α)
      (now : Int), d.max_size = N → (d.rows.map Row.key).Nodup →
      (((SQLiteCache.insert tie true d k v now).rows.length : Int) ≤ N) := by
    intro tie d k v now h1 h2
    have := SQLiteCache.insert_length_le tie d k v now (by rw [h1]; omega) h2
    rwa [h1] at this
  refine ⟨hmemstep, fun tie d k v now h1 h2 _ => hsqlstep tie d k v now h1 h2, ?_, ?_⟩
  · have hrun : ∀ (ops : List (String × α)) (c : InMemoryCache α), c.max_size = N →
        (c.cache.length : Int) ≤ N →
        (((InMemoryCache.runInserts c ops).cache.length : Int) ≤ N) := by
      intro ops
      induction ops with
      | nil => intro c _ h2; exact h2
      | cons p t ih =>
        intro c h1 h2
        show (((InMemoryCache.runInserts (InMemoryCache.insert true c p.1 p.2) t).cache.length : Int) ≤ N)
        exact ih _ (by rw [InMemoryCache.insert_keeps_max_size]; exact h1)
          (hmemstep c p.1 p.2 h1 h2)
    intro ops
    exact hrun ops _ rfl (by simp [InMemoryCache.init]; omega)
  · intro tie
    have hrun : ∀ (ops : List (String × α × Int)) (d : SQLiteCache α), d.max_size = N →
        (d.rows.map Row.key).Nodup → (d.rows.length : Int) ≤ N →
        (((SQLiteCache.runInserts tie d ops).rows.length : Int) ≤ N) := by
      intro ops
      induction ops with
      | nil => intro d _ _ h3; exact h3
      | cons p t ih =>
        intro d h1 h2 _
        show (((SQLiteCache.runInserts tie (SQLiteCache.insert tie true d p.1 p.2.1 p.2.2) t).rows.length : Int) ≤ N)
        exact ih _ (by rw [SQLiteCache.insert_max_size]; exact h1)
          (SQLiteCache.insert_nodupKeys tie d p.1 p.2.1 p.2.2 h2)
          (hsqlstep tie d p.1 p.2.1 p.2.2 h1 h2)
    intro ops
    exact hrun ops _ rfl (by simp [SQLiteCache.init]) (by simp [SQLiteCache.init]; omega)

/-- C1 (witness at capacity 2 with concrete states and sequences). -/
theorem C1_capacity_invariant_witness :
    (((InMemoryCache.insert true (⟨[("a", 1)], 2⟩ : InMemoryCache Nat) "b" 2).cache.length : Int) ≤ 2) ∧
    (((SQLiteCache.insert (fun _ => 0) true (⟨[⟨"a", 1, 0⟩], 2⟩ : SQLiteCache Nat) "b" 2 1).rows.length : Int) ≤ 2) ∧
    (((InMemoryCache.runInserts (InMemoryCache.init Nat 2) [("a", 1), ("b", 2), ("c", 3)]).cache.length : Int) ≤ 2) ∧
    (((SQLiteCache.runInserts (fun _ => 0) (SQLiteCache.init 2 []) [("a", 1, 0), ("b", 2, 1), ("c", 3, 2)]).rows.length : Int) ≤ 2) := by
  have h := C1_capacity_invariant Nat 2 (by decide)
  exact ⟨h.1 _ "b" 2 rfl (by decide), h.2.1 _ _ "b" 2 1 rfl (by decide) (by decide),
    h.2.2.1 _, h.2.2.2 _ _⟩

/-- C3 (amended): with caching enabled and capacity at least 1,
`insert(k, v)` immediately followed by `get(k)` returns `v`, on either
backend — for the in-memory backend from any within-capacity state, for
the durable backend from any key-distinct state whose rows are strictly
older than the insert's timestamp (the clock has advanced past every
earlier access).  The strict-freshness hypothesis is necessary: a stored
row sharing the insert's clock second ties with the fresh row in
`ORDER BY last_accessed`, and the store's unspecified tie order may evict
the row the insert just wrote (see the same-second counterexample). -/
theorem C3_round_trip (α : Type) (k : String) (v : α)
    (c : InMemoryCache α) (hc1 : 0 < c.max_size)
    (hc2 : (c.cache.length : Int) ≤ c.max_size)
    (tie : String → Nat) (d : SQLiteCache α) (now later : Int)
    (hd1 : 0 < d.max_size) (hd2 : (d.rows.map Row.key).Nodup)
    (hd3 : ∀ r ∈ d.rows, r.last_accessed < now) :
    InMemoryCache.get true (InMemoryCache.insert true c k v) k = some v ∧
    (SQLiteCache.get true (SQLiteCache.insert tie true d k v now) k later).1 = some v := by
  constructor
  · show ((InMemoryCache.insert true c k v).cache.find? (fun p => p.1 = k)).map
      (fun p => p.2) = some v
    rw [InMemoryCache.insert_find c k v hc1 hc2]
    rfl
  · exact SQLiteCache.insert_get_round_trip tie d k v now later hd1 hd2 hd3

/-- C3 (witness: round trip at capacity 2 / 1 over non-empty states). -/
theorem C3_round_trip_witness :
    InMemoryCache.get true (InMemoryCache.insert true (⟨[("a", 1)], 2⟩ : InMemoryCache Nat) "b" 9) "b" = some 9 ∧
    (SQLiteCache.get true (SQLiteCache.insert (fun _ => 0) true (⟨[⟨"a", 3, 0⟩], 1⟩ : SQLiteCache Nat) "b" 9 5) "b" 6).1 = some 9 :=
  C3_round_trip Nat "b" 9 ⟨[("a", 1)], 2⟩ (by decide) (by decide)
    (fun _ => 0) ⟨[⟨"a", 3, 0⟩], 1⟩ 5 6 (by decide) (by decide) (by decide)

/-- C5: each enabled durable insert first upserts the row; then, if the
resulting count exceeds `max_size`, exactly `count − max_size` rows are
deleted (leaving `max_size`), the survivors keep their order, and every
deleted row's `last_accessed` is at most every survivor's; if the count is
within the bound, nothing is deleted. -/
theorem C5_bulk_eviction_policy (α : Type) (tie : String → Nat) (d : SQLiteCache α)
    (k : String) (v : α) (now : Int)
    (hN : 0 ≤ d.max_size) (hnd : (d.rows.map Row.key).Nodup) :
    (((SQLiteCache.upsert d.rows k v now).length : Int) ≤ d.max_size →
      (SQLiteCache.insert tie true d k v now).rows = SQLiteCache.upsert d.rows k v now) ∧
    (d.max_size < ((SQLiteCache.upsert d.rows k v now).length : Int) →
      ((((SQLiteCache.insert tie true d k v now).rows.length : Int) = d.max_size) ∧
       ((SQLiteCache.insert tie true d k v now).rows).Sublist (SQLiteCache.upsert d.rows k v now) ∧
       (∀ r ∈ SQLiteCache.upsert d.rows k v now,
          r ∉ (SQLiteCache.insert tie true d k v now).rows →
          ∀ s ∈ (SQLiteCache.insert tie true d k v now).rows,
            r.last_accessed ≤ s.last_accessed))) := by
  have hundup := SQLiteCache.upsert_nodupKeys d.rows k v now hnd
  constructor
  · intro h
    exact SQLiteCache.enforce_of_le tie _ _ h
  · intro h
    exact ⟨SQLiteCache.enforce_length_of_over tie _ _ hundup h hN,
      SQLiteCache.enforce_sublist tie _ _,
      SQLiteCache.enforce_evicted_le_kept tie _ _ hundup⟩

/-- C5 (witness: capacity 1, one old row, one fresh insert). -/
theorem C5_bulk_eviction_policy_witness :
    (((SQLiteCache.upsert ([⟨"a", 1, 0⟩] : List (Row Nat)) "b" 2 5).length : Int) ≤ 1 →
      (SQLiteCache.insert (fun _ => 0) true (⟨[⟨"a", 1, 0⟩], 1⟩ : SQLiteCache Nat) "b" 2 5).rows
        = SQLiteCache.upsert [⟨"a", 1, 0⟩] "b" 2 5) ∧
    ((1 : Int) < ((SQLiteCache.upsert ([⟨"a", 1, 0⟩] : List (Row Nat)) "b" 2 5).length : Int) →
      ((((SQLiteCache.insert (fun _ => 0) true (⟨[⟨"a", 1, 0⟩], 1⟩ : SQLiteCache Nat) "b" 2 5).rows.length : Int) = 1) ∧
       ((SQLiteCache.insert (fun _ => 0) true (⟨[⟨"a", 1, 0⟩], 1⟩ : SQLiteCache Nat) "b" 2 5).rows).Sublist
         (SQLiteCache.upsert [⟨"a", 1, 0⟩] "b" 2 5) ∧
       (∀ r ∈ SQLiteCache.upsert ([⟨"a", 1, 0⟩] : List (Row Nat)) "b" 2 5,
          r ∉ (SQLiteCache.insert (fun _ => 0) true (⟨[⟨"a", 1, 0⟩], 1⟩ : SQLiteCache Nat) "b" 2 5).rows →
          ∀ s ∈ (SQLiteCache.insert (fun _ => 0) true (⟨[⟨"a", 1, 0⟩], 1⟩ : SQLiteCache Nat) "b" 2 5).rows,
            r.last_accessed ≤ s.last_accessed))) :=
  C5_bulk_eviction_policy Nat (fun _ => 0) ⟨[⟨"a", 1, 0⟩], 1⟩ "b" 2 5 (by decide) (by decide)

/-- C7 (amended): with caching enabled, inserting `k` twice leaves
`get(k)` at the second value and the second insert does not change the
entry count, on either backend — for the durable backend from a
key-distinct state whose rows are strictly older than the first insert's
timestamp.  As for the round trip, the strict-freshness hypothesis is
necessary: when a full table holds a row of the same clock second, the
unspecified tie order may evict the overwritten key itself (see the
same-second counterexample). -/
theorem C7_overwrite (α : Type) (k : String) (v1 v2 : α)
    (c : InMemoryCache α) (hc1 : 0 < c.max_size)
    (hc2 : (c.cache.length : Int) ≤ c.max_size)
    (tie : String → Nat) (d : SQLiteCache α) (t1 t2 tl : Int)
    (hd1 : 0 < d.max_size) (hd2 : (d.rows.map Row.key).Nodup)
    (hd3 : ∀ r ∈ d.rows, r.last_accessed < t1) :
    InMemoryCache.get true (InMemoryCache.insert true (InMemoryCache.insert true c k v1) k v2) k = some v2 ∧
    (InMemoryCache.insert true (InMemoryCache.insert true c k v1) k v2).cache.length
      = (InMemoryCache.insert true c k v1).cache.length ∧
    (SQLiteCache.get true (SQLiteCache.insert tie true (SQLiteCache.insert tie true d k v1 t1) k v2 t2) k tl).1 = some v2 ∧
    (SQLiteCache.insert tie true (SQLiteCache.insert tie true d k v1 t1) k v2 t2).rows.length
      = (SQLiteCache.insert tie true d k v1 t1).rows.length := by
  have hfind1 := InMemoryCache.insert_find c k v1 hc1 hc2
  have hmem1 : (k, v1) ∈ (InMemoryCache.insert true c k v1).cache :=
    List.mem_of_find?_eq_some hfind1
  have hany1 : (InMemoryCache.insert true c k v1).cache.any (fun p => p.1 = k) = true :=
    List.any_eq_true.mpr ⟨(k, v1), hmem1, by simp⟩
  have hlen1 : ((InMemoryCache.insert true c k v1).cache.length : Int)
      ≤ (InMemoryCache.insert true c k v1).max_size := by
    rw [InMemoryCache.insert_keeps_max_size]
    exact InMemoryCache.insert_len_le c k v1 hc2
  obtain ⟨hmap2, hlen2⟩ :=
    InMemoryCache.insert_overwrite (InMemoryCache.insert true c k v1) k v2 hany1 hlen1
  have hm1 : (⟨k, v1, t1⟩ : Row α) ∈ (SQLiteCache.insert tie true d k v1 t1).rows :=
    SQLiteCache.insert_mem_inserted tie d k v1 t1 (by omega) hd2 hd3
  have hnd1 := SQLiteCache.insert_nodupKeys tie d k v1 t1 hd2
  have hlen1' : (((SQLiteCache.insert tie true d k v1 t1).rows.length : Int)) ≤ d.max_size :=
    SQLiteCache.insert_length_le tie d k v1 t1 (by omega) hd2
  have hcount : (SQLiteCache.upsert (SQLiteCache.insert tie true d k v1 t1).rows k v2 t2).length
      = (SQLiteCache.insert tie true d k v1 t1).rows.length := by
    rw [SQLiteCache.upsert_length]
    exact SQLiteCache.filter_ne_key_length _ k hnd1 ⟨k, v1, t1⟩ hm1 rfl
  have hd2rows : (SQLiteCache.insert tie true (SQLiteCache.insert tie true d k v1 t1) k v2 t2).rows
      = SQLiteCache.upsert (SQLiteCache.insert tie true d k v1 t1).rows k v2 t2 := by
    show SQLiteCache.enforce_size_limit tie
        (SQLiteCache.upsert (SQLiteCache.insert tie true d k v1 t1).rows k v2 t2)
        (SQLiteCache.insert tie true d k v1 t1).max_size = _
    rw [SQLiteCache.insert_max_size]
    apply SQLiteCache.enforce_of_le
    rw [hcount]
    exact hlen1'
  refine ⟨?_, hlen2, ?_, ?_⟩
  · show ((InMemoryCache.insert true (InMemoryCache.insert true c k v1) k v2).cache.find?
        (fun p => p.1 = k)).map (fun p => p.2) = some v2
    rw [hmap2, InMemoryCache.find?_mapOverwrite _ k v2 hany1]
    rfl
  · rw [SQLiteCache.get_fst, hd2rows, SQLiteCache.find?_upsert]
    rfl
  · rw [hd2rows]
    exact hcount

/-- C7 (witness: overwrite `"a"` from 1 to 2 on both backends). -/
theorem C7_overwrite_witness :
    InMemoryCache.get true (InMemoryCache.insert true (InMemoryCache.insert true (InMemoryCache.init Nat 1) "a" 1) "a" 2) "a" = some 2 ∧
    (InMemoryCache.insert true (InMemoryCache.insert true (InMemoryCache.init Nat 1) "a" 1) "a" 2).cache.length
      = (InMemoryCache.insert true (InMemoryCache.init Nat 1) "a" 1).cache.length ∧
    (SQLiteCache.get true (SQLiteCache.insert (fun _ => 0) true (SQLiteCache.insert (fun _ => 0) true (SQLiteCache.init 1 ([] : List (Row Nat))) "a" 1 1) "a" 2 2) "a" 3).1 = some 2 ∧
    (SQLiteCache.insert (fun _ => 0) true (SQLiteCache.insert (fun _ => 0) true (SQLiteCache.init 1 ([] : List (Row Nat))) "a" 1 1) "a" 2 2).rows.length
      = (SQLiteCache.insert (fun _ => 0) true (SQLiteCache.init 1 ([] : List (Row Nat))) "a" 1 1).rows.length :=
  C7_overwrite Nat "a" 1 2 (InMemoryCache.init Nat 1) (by decide) (by decide)
    (fun _ => 0) (SQLiteCache.init 1 ([] : List (Row Nat))) 1 2 3 (by decide) (by decide) (by decide)

/-! ## Helper lemmas for the bulk-eviction scenario -/

namespace SQLiteCache

/-- Filtering out the keys of the first `n` rows of a key-distinct table
drops exactly those first `n` rows. -/
theorem filter_not_contains_take_keys (rows : List (Row α)) (n : Nat)
    (hnd : (rows.map Row.key).Nodup) :
    rows.filter (fun r => ¬ ((rows.take n).map Row.key).contains r.key)
      = rows.drop n := by
  have hsplitkeys : (rows.map Row.key) =
      (rows.take n).map Row.key ++ (rows.drop n).map Row.key := by
    rw [← List.map_append, List.take_append_drop]
  have hdisj : ∀ x ∈ (rows.take n).map Row.key, x ∉ (rows.drop n).map Row.key := by
    rw [hsplitkeys] at hnd
    intro x hx
    exact (List.nodup_append.mp hnd).2.2 hx
  have hgen : ∀ vict : List String, vict = (rows.take n).map Row.key →
      rows.filter (fun r => ¬ vict.contains r.key) = rows.drop n := by
    intro vict hvict
    conv_lhs => rw [← List.take_append_drop n rows]
    rw [List.filter_append]
    have htake : (rows.take n).filter (fun r => ¬ vict.contains r.key) = [] := by
      rw [List.filter_eq_nil_iff]
      intro r hr
      simp only [decide_not, Bool.not_eq_true', decide_eq_false_iff_not, not_not, hvict]
      exact List.elem_iff.mpr (List.mem_map_of_mem Row.key hr)
    have hdrop : (rows.drop n).filter (fun r => ¬ vict.contains r.key) = rows.drop n := by
      rw [List.filter_eq_self]
      intro r hr
      simp only [decide_not, Bool.not_eq_true', decide_eq_false_iff_not, hvict]
      intro hc
      exact hdisj r.key (List.elem_iff.mp hc) (List.mem_map_of_mem Row.key hr)
    rw [htake, hdrop, List.nil_append]
  exact hgen _ rfl

/-- On an already `rowLE`-sorted key-distinct table over the bound,
eviction drops exactly the first `count - max_size` rows. -/
theorem enforce_of_pairwise (tie : String → Nat) (rows : List (Row α)) (N : Int)
    (hnd : (rows.map Row.key).Nodup) (hpw : rows.Pairwise (rowLE tie))
    (hover : N < (rows.length : Int)) :
    enforce_size_limit tie rows N = rows.drop ((rows.length : Int) - N).toNat := by
  unfold enforce_size_limit
  rw [if_pos (by omega)]
  rw [List.Sorted.insertionSort_eq hpw]
  exact filter_not_contains_take_keys rows _ hnd

/-- One enabled insert of a fresh key into a full capacity-2 table with
strictly increasing timestamps: the oldest row is evicted and the fresh row
appended, for every tie-breaking order. -/
theorem insert_step (tie : String → Nat) (r1 r2 : Row α) (k : String) (v : α) (now : Int)
    (h12 : r1.last_accessed < r2.last_accessed) (h2 : r2.last_accessed < now)
    (hk1 : r1.key ≠ k) (hk2 : r2.key ≠ k) (hk12 : r1.key ≠ r2.key) :
    insert tie true (⟨[r1, r2], 2⟩ : SQLiteCache α) k v now
      = ⟨[r2, ⟨k, v, now⟩], 2⟩ := by
  have hu : upsert [r1, r2] k v now = [r1, r2, ⟨k, v, now⟩] := by
    unfold upsert
    rw [List.filter_cons, if_pos (by simpa using hk1), List.filter_cons,
      if_pos (by simpa using hk2)]
    rfl
  have hnd3 : (([r1, r2, ⟨k, v, now⟩] : List (Row α)).map Row.key).Nodup := by
    simp [List.nodup_cons, hk1, hk2, hk12]
  have hpw : ([r1, r2, ⟨k, v, now⟩] : List (Row α)).Pairwise (rowLE tie) := by
    refine List.Pairwise.cons ?_ (List.Pairwise.cons ?_ (List.pairwise_singleton _ _))
    · intro b hb
      rcases List.mem_cons.mp hb with rfl | hb
      · exact Or.inl h12
      · rw [List.mem_singleton] at hb
        subst hb
        refine Or.inl ?_
        show r1.last_accessed < now
        omega
    · intro b hb
      rw [List.mem_singleton] at hb
      subst hb
      exact Or.inl h2
  show (⟨enforce_size_limit tie (upsert [r1, r2] k v now) 2, 2⟩ : SQLiteCache α) = _
  rw [hu, enforce_of_pairwise tie _ 2 hnd3 hpw (by simp)]
  rfl

end SQLiteCache

/-- C6 (counterexample): the claim quantifies over every timing, including
five inserts within the same clock second.  Then all five rows carry the
same `last_accessed`, and `ORDER BY last_accessed ASC` does not determine
the victims (SQLite leaves the order of equal keys unspecified).  Under the
legitimate resolution ranking later keys older, each insert beyond capacity
evicts the row it just wrote: the two keys that remain are `"k1"`, `"k2"` —
the two *oldest* — and `get` on the most-recently-inserted `"k4"`, `"k5"`
returns absent, contradicting the claim. -/
theorem C6_same_second_counterexample :
    (let tie : String → Nat := fun s =>
       if s = "k1" then 5 else if s = "k2" then 4 else if s = "k3" then 3
       else if s = "k4" then 2 else 1
     let c := SQLiteCache.runInserts tie (SQLiteCache.init 2 ([] : List (Row Nat)))
       [("k1", 1, 0), ("k2", 2, 0), ("k3", 3, 0), ("k4", 4, 0), ("k5", 5, 0)]
     c.rows.map Row.key = ["k1", "k2"] ∧
     (SQLiteCache.get true c "k4" 9).1 = none ∧
     (SQLiteCache.get true c "k5" 9).1 = none) := by
  decide

/-- C6 (amended): with capacity 2, five distinct keys inserted at strictly
increasing timestamps (distinct clock seconds) and no intervening reads
leave exactly the two most-recently-inserted keys, whatever tie-breaking
order the store uses, and `get` on the other three returns absent. -/
theorem C6_bulk_eviction_distinct_seconds (α : Type) (tie : String → Nat)
    (v1 v2 v3 v4 v5 : α) (t1 t2 t3 t4 t5 tl : Int)
    (h12 : t1 < t2) (h23 : t2 < t3) (h34 : t3 < t4) (h45 : t4 < t5) :
    (SQLiteCache.runInserts tie (SQLiteCache.init 2 ([] : List (Row α)))
        [("k1", v1, t1), ("k2", v2, t2), ("k3", v3, t3), ("k4", v4, t4), ("k5", v5, t5)]).rows
      = [⟨"k4", v4, t4⟩, ⟨"k5", v5, t5⟩] ∧
    (SQLiteCache.get true (SQLiteCache.runInserts tie (SQLiteCache.init 2 ([] : List (Row α)))
        [("k1", v1, t1), ("k2", v2, t2), ("k3", v3, t3), ("k4", v4, t4), ("k5", v5, t5)]) "k1" tl).1 = none ∧
    (SQLiteCache.get true (SQLiteCache.runInserts tie (SQLiteCache.init 2 ([] : List (Row α)))
        [("k1", v1, t1), ("k2", v2, t2), ("k3", v3, t3), ("k4", v4, t4), ("k5", v5, t5)]) "k2" tl).1 = none ∧
    (SQLiteCache.get true (SQLiteCache.runInserts tie (SQLiteCache.init 2 ([] : List (Row α)))
        [("k1", v1, t1), ("k2", v2, t2), ("k3", v3, t3), ("k4", v4, t4), ("k5", v5, t5)]) "k3" tl).1 = none ∧
    (SQLiteCache.get true (SQLiteCache.runInserts tie (SQLiteCache.init 2 ([] : List (Row α)))
        [("k1", v1, t1), ("k2", v2, t2), ("k3", v3, t3), ("k4", v4, t4), ("k5", v5, t5)]) "k4" tl).1 = some v4 ∧
    (SQLiteCache.get true (SQLiteCache.runInserts tie (SQLiteCache.init 2 ([] : List (Row α)))
        [("k1", v1, t1), ("k2", v2, t2), ("k3", v3, t3), ("k4", v4, t4), ("k5", v5, t5)]) "k5" tl).1 = some v5 := by
  have e1 : SQLiteCache.insert tie true (SQLiteCache.init 2 ([] : List (Row α))) "k1" v1 t1
      = ⟨[⟨"k1", v1, t1⟩], 2⟩ := by
    show (⟨SQLiteCache.enforce_size_limit tie (SQLiteCache.upsert [] "k1" v1 t1) 2, 2⟩ : SQLiteCache α) = _
    rw [show SQLiteCache.upsert ([] : List (Row α)) "k1" v1 t1 = [⟨"k1", v1, t1⟩] from rfl,
      SQLiteCache.enforce_of_le _ _ _ (by simp)]
  have e2 : SQLiteCache.insert tie true (⟨[⟨"k1", v1, t1⟩], 2⟩ : SQLiteCache α) "k2" v2 t2
      = ⟨[⟨"k1", v1, t1⟩, ⟨"k2", v2, t2⟩], 2⟩ := by
    show (⟨SQLiteCache.enforce_size_limit tie
        (SQLiteCache.upsert [⟨"k1", v1, t1⟩] "k2" v2 t2) 2, 2⟩ : SQLiteCache α) = _
    have hu2 : SQLiteCache.upsert [⟨"k1", v1, t1⟩] "k2" v2 t2
        = [⟨"k1", v1, t1⟩, ⟨"k2", v2, t2⟩] := by
      unfold SQLiteCache.upsert
      rw [List.filter_cons, if_pos (by simp)]
      rfl
    rw [hu2, SQLiteCache.enforce_of_le _ _ _ (by simp)]
  have e3 := SQLiteCache.insert_step tie ⟨"k1", v1, t1⟩ ⟨"k2", v2, t2⟩ "k3" v3 t3
    h12 h23 (by simp) (by simp) (by simp)
  have e4 := SQLiteCache.insert_step tie ⟨"k2", v2, t2⟩ ⟨"k3", v3, t3⟩ "k4" v4 t4
    h23 h34 (by simp) (by simp) (by simp)
  have e5 := SQLiteCache.insert_step tie ⟨"k3", v3, t3⟩ ⟨"k4", v4, t4⟩ "k5" v5 t5
    h34 h45 (by simp) (by simp) (by simp)
  have hrun : SQLiteCache.runInserts tie (SQLiteCache.init 2 ([] : List (Row α)))
      [("k1", v1, t1), ("k2", v2, t2), ("k3", v3, t3), ("k4", v4, t4), ("k5", v5, t5)]
      = ⟨[⟨"k4", v4, t4⟩, ⟨"k5", v5, t5⟩], 2⟩ := by
    show SQLiteCache.insert tie true (SQLiteCache.insert tie true (SQLiteCache.insert tie true
        (SQLiteCache.insert tie true (SQLiteCache.insert tie true
          (SQLiteCache.init 2 ([] : List (Row α))) "k1" v1 t1) "k2" v2 t2)
        "k3" v3 t3) "k4" v4 t4) "k5" v5 t5 = _
    rw [e1, e2, e3, e4, e5]
  refine ⟨by rw [hrun], ?_, ?_, ?_, ?_, ?_⟩ <;>
    rw [hrun, SQLiteCache.get_fst] <;> simp [List.find?]

/-- C6 (witness for the amended theorem at seconds 1..5). -/
theorem C6_bulk_eviction_distinct_seconds_witness :
    (SQLiteCache.runInserts (fun _ => 0) (SQLiteCache.init 2 ([] : List (Row Nat)))
        [("k1", 1, 1), ("k2", 2, 2), ("k3", 3, 3), ("k4", 4, 4), ("k5", 5, 5)]).rows
      = [⟨"k4", 4, 4⟩, ⟨"k5", 5, 5⟩] ∧
    (SQLiteCache.get true (SQLiteCache.runInserts (fun _ => 0) (SQLiteCache.init 2 ([] : List (Row Nat)))
        [("k1", 1, 1), ("k2", 2, 2), ("k3", 3, 3), ("k4", 4, 4), ("k5", 5, 5)]) "k1" 9).1 = none ∧
    (SQLiteCache.get true (SQLiteCache.runInserts (fun _ => 0) (SQLiteCache.init 2 ([] : List (Row Nat)))
        [("k1", 1, 1), ("k2", 2, 2), ("k3", 3, 3), ("k4", 4, 4), ("k5", 5, 5)]) "k2" 9).1 = none ∧
    (SQLiteCache.get true (SQLiteCache.runInserts (fun _ => 0) (SQLiteCache.init 2 ([] : List (Row Nat)))
        [("k1", 1, 1), ("k2", 2, 2), ("k3", 3, 3), ("k4", 4, 4), ("k5", 5, 5)]) "k3" 9).1 = none ∧
    (SQLiteCache.get true (SQLiteCache.runInserts (fun _ => 0) (SQLiteCache.init 2 ([] : List (Row Nat)))
        [("k1", 1, 1), ("k2", 2, 2), ("k3", 3, 3), ("k4", 4, 4), ("k5", 5, 5)]) "k4" 9).1 = some 4 ∧
    (SQLiteCache.get true (SQLiteCache.runInserts (fun _ => 0) (SQLiteCache.init 2 ([] : List (Row Nat)))
        [("k1", 1, 1), ("k2", 2, 2), ("k3", 3, 3), ("k4", 4, 4), ("k5", 5, 5)]) "k5" 9).1 = some 5 :=
  C6_bulk_eviction_distinct_seconds Nat (fun _ => 0) 1 2 3 4 5 1 2 3 4 5 9
    (by decide) (by decide) (by decide) (by decide)

/-- C3 (counterexample): the unrestricted round-trip claim fails on the
durable backend at a reachable state.  With the flag on and capacity 1,
an enabled insert of `"a"` at second 5 fills the store; inserting `"b"`
during the same second 5 makes both rows carry `last_accessed = 5`, and
under the legitimate resolution of SQLite's unspecified `ORDER BY` tie
order that ranks `"b"` older, `_enforce_size_limit` evicts the row the
insert just wrote: the immediately following `get("b")` returns absent,
not the inserted value. -/
theorem C3_same_second_counterexample :
    (let tie : String → Nat := fun s => if s = "b" then 0 else 1
     let d0 := SQLiteCache.insert tie true (SQLiteCache.init 1 ([] : List (Row Nat))) "a" 0 5
     (SQLiteCache.get true (SQLiteCache.insert tie true d0 "b" 9 5) "b" 6).1 = none) := by
  decide

/-- C7 (counterexample): the unrestricted overwrite claim fails on the
durable backend at a reachable state.  From the same full capacity-1
store of the C3 scenario, `insert("b", 1)` then `insert("b", 2)` during
the same second 5 each lose the tie against the resident row `"a"` under
the same legitimate tie order, so `get("b")` afterwards returns absent
rather than the second value. -/
theorem C7_same_second_counterexample :
    (let tie : String → Nat := fun s => if s = "b" then 0 else 1
     let d0 := SQLiteCache.insert tie true (SQLiteCache.init 1 ([] : List (Row Nat))) "a" 0 5
     (SQLiteCache.get true (SQLiteCache.insert tie true
        (SQLiteCache.insert tie true d0 "b" 1 5) "b" 2 5) "b" 6).1 = none) := by
  decide
